import Mathlib

/-!
Verification of the gyroscope audio-graph core (`src/graph/mod.rs`,
`src/channel.rs`, `src/graph/nodes/constant.rs`).

The Rust code is shallowly embedded: nodes are modelled by their arities
(the graph logic never looks at anything else of a `Node` trait object),
`BitSet` is modelled by `Finset Nat`, and the recursive
`topo_sort_visit` is embedded with an explicit fuel parameter (the Rust
recursion is bounded by the number of nodes; `compute_order` passes
`nodes.length + 1` fuel, and we prove below that this can never run out).
`Option` wraps results so that fuel exhaustion — and the `assert!` in
`topo_sort_visit`, which can only fire on graphs with dangling node ids —
are represented by `none` rather than by a junk value.
-/

namespace Gyroscope

/-- The observable signature of a `Node` trait object: its input and
output arities (`num_inputs`, `num_outputs` in `graph/mod.rs`). -/
structure NodeSig where
  num_inputs : Nat
  num_outputs : Nat
deriving DecidableEq, Repr

/-- Rust `NodeWrapper` from `graph/mod.rs`: a node together with its input
bindings, one slot per input index, each `none` (unbound) or
`some (upstream NodeID, upstream OutputID)`. -/
structure NodeWrapper where
  node : NodeSig
  inputs : List (Option (Nat × Nat))
deriving DecidableEq, Repr

/-- Rust `Graph` from `graph/mod.rs`: nodes indexed by `NodeID`, a cached
execution order and a dirty flag. -/
structure Graph where
  nodes : List NodeWrapper
  order : List Nat
  dirty : Bool
deriving DecidableEq, Repr

/-- Rust `graph::Error`. -/
inductive Error where
  | NoSuchNode (id : Nat)
  | NoSuchInput (id ch : Nat)
  | InputAlreadyPatched (id ch : Nat)
  | NoSuchOutput (id ch : Nat)
  | IncompleteGraph (id : Nat)
  | CycleDetected
deriving DecidableEq, Repr

/-- Rust `graph::Result<()>`: either success or a `graph::Error`. -/
inductive RStatus where
  | ok
  | err (e : Error)
deriving DecidableEq, Repr

/-- Rust `Graph::new`. -/
def Graph.new : Graph :=
  { nodes := [], order := [], dirty := false }

/-- Rust `Graph::add_node`: append a wrapper with all-unbound inputs, mark the
graph dirty, return the new `NodeID` (the previous length). -/
def Graph.add_node (g : Graph) (n : NodeSig) : Graph × Nat :=
  ({ g with
      nodes := g.nodes ++ [{ node := n, inputs := List.replicate n.num_inputs none }],
      dirty := true },
   g.nodes.length)

/-- Rust `Graph::patch`: validate `o_node`, then `o_chan`, then `i_node`, then
`i_chan`; on success overwrite the binding at `(i_node, i_chan)` with
`(o_node, o_chan)`, reporting `InputAlreadyPatched` if a binding was
already there.  Note: the source does not touch `dirty` here. -/
def Graph.patch (g : Graph) (o_node o_chan i_node i_chan : Nat) : Graph × RStatus :=
  match g.nodes[o_node]? with
  | none => (g, .err (.NoSuchNode o_node))
  | some nw =>
    if nw.node.num_outputs ≤ o_chan then
      (g, .err (.NoSuchOutput o_node o_chan))
    else
      match g.nodes[i_node]? with
      | none => (g, .err (.NoSuchNode i_node))
      | some nwi =>
        match nwi.inputs[i_chan]? with
        | none => (g, .err (.NoSuchInput i_node i_chan))
        | some old =>
          let g' := { g with
            nodes := g.nodes.set i_node
              { nwi with inputs := nwi.inputs.set i_chan (some (o_node, o_chan)) } }
          match old with
          | some _ => (g', .err (.InputAlreadyPatched i_node i_chan))
          | none => (g', .ok)

/-- The mutable traversal state of `compute_order`: the two `BitSet`
markers and the order list being rebuilt in place. -/
structure TState where
  marked : Finset Nat
  on_stack : Finset Nat
  order : List Nat

/-- The `for input in inputs` loop body of `topo_sort_visit`: an unbound
input fails with `IncompleteGraph(id)`, a bound input recurses (via
`step`, the visit function at the remaining fuel) into the upstream
node. -/
def runInputs (step : TState → Nat → Option (TState × RStatus)) :
    TState → Nat → List (Option (Nat × Nat)) → Option (TState × RStatus)
  | s, _, [] => some (s, .ok)
  | s, id, none :: _ => some (s, .err (.IncompleteGraph id))
  | s, id, some (next, _) :: rest =>
    match step s next with
    | none => none
    | some (s', .err e) => some (s', .err e)
    | some (s', .ok) => runInputs step s' id rest

/-- Rust `Graph::topo_sort_visit`.  `none` means fuel ran out or the
`assert!(id < self.nodes.len())` failed; neither happens for the fuel
`compute_order` supplies on graphs whose bindings are in range. -/
def topo_sort_visit (nodes : List NodeWrapper) :
    Nat → TState → Nat → Option (TState × RStatus)
  | 0, _, _ => none
  | fuel + 1, s, id =>
    if id ∈ s.on_stack then
      some (s, .err .CycleDetected)
    else if id ∈ s.marked then
      some ({ s with on_stack := (insert id s.on_stack).erase id }, .ok)
    else
      match nodes[id]? with
      | none => none
      | some nw =>
        match runInputs (topo_sort_visit nodes fuel)
            { s with on_stack := insert id s.on_stack } id nw.inputs with
        | none => none
        | some (s₂, .err e) => some (s₂, .err e)
        | some (s₂, .ok) =>
          some ({ s₂ with
                    marked := insert id s₂.marked,
                    order := s₂.order ++ [id],
                    on_stack := s₂.on_stack.erase id }, .ok)

/-- The `for id in 0..self.nodes.len()` loop of `compute_order`. -/
def topo_sort_loop (nodes : List NodeWrapper) (fuel : Nat) :
    TState → List Nat → Option (TState × RStatus)
  | s, [] => some (s, .ok)
  | s, id :: rest =>
    if id ∈ s.marked then
      topo_sort_loop nodes fuel s rest
    else
      match topo_sort_visit nodes fuel s id with
      | none => none
      | some (s', .err e) => some (s', .err e)
      | some (s', .ok) => topo_sort_loop nodes fuel s' rest

/-- Rust `Graph::compute_order`: fresh marker sets, `order` cleared up front,
`dirty` cleared only on success; on failure the partially rebuilt order
is left in place (the source pushes into `self.order` during the
traversal). -/
def Graph.compute_order (g : Graph) : Option (Graph × RStatus) :=
  match topo_sort_loop g.nodes (g.nodes.length + 1) ⟨∅, ∅, []⟩
      (List.range g.nodes.length) with
  | none => none
  | some (s, .ok) => some ({ g with order := s.order, dirty := false }, .ok)
  | some (s, .err e) => some ({ g with order := s.order }, .err e)

/-! ### The dependency relation and graph predicates -/

/-- The upstream node ids bound into the inputs of node `x`. -/
def deps (nodes : List NodeWrapper) (x : Nat) : List Nat :=
  match nodes[x]? with
  | some nw => nw.inputs.filterMap (fun b => b.map Prod.fst)
  | none => []

/-- Node `x` depends on node `y`: some input of `x` is bound to an
output of `y`. -/
def dep (nodes : List NodeWrapper) (x y : Nat) : Prop :=
  y ∈ deps nodes x

instance (nodes : List NodeWrapper) (x y : Nat) : Decidable (dep nodes x y) :=
  inferInstanceAs (Decidable (y ∈ deps nodes x))

/-- All bindings point at existing nodes.  This is an invariant of every
graph reachable through the API (`patch` validates `o_node`, and nodes
are never removed). -/
def Wf (nodes : List NodeWrapper) : Prop :=
  ∀ x ∈ List.range nodes.length, ∀ y ∈ deps nodes x, y < nodes.length

instance (nodes : List NodeWrapper) : Decidable (Wf nodes) :=
  inferInstanceAs (Decidable (∀ x ∈ List.range nodes.length,
    ∀ y ∈ deps nodes x, y < nodes.length))

/-- Every input slot of every node is bound. -/
def Complete (nodes : List NodeWrapper) : Prop :=
  ∀ nw ∈ nodes, ∀ b ∈ nw.inputs, b ≠ none

instance (nodes : List NodeWrapper) : Decidable (Complete nodes) :=
  inferInstanceAs (Decidable (∀ nw ∈ nodes, ∀ b ∈ nw.inputs, b ≠ none))

/-- The dependency relation has no cycles (no node transitively depends
on itself). -/
def Acyclic (nodes : List NodeWrapper) : Prop :=
  ∀ x, ¬ Relation.TransGen (dep nodes) x x

/-- The binding currently held by input slot `ch` of node `i` (flattened:
`none` when the node or slot does not exist, or when the slot is
unbound). -/
def Graph.binding (g : Graph) (i ch : Nat) : Option (Nat × Nat) :=
  match g.nodes[i]? with
  | some nw =>
    match nw.inputs[ch]? with
    | some b => b
    | none => none
  | none => none

/-- Output arity of node `i` (0 when the node does not exist). -/
def Graph.outArity (g : Graph) (i : Nat) : Nat :=
  match g.nodes[i]? with
  | some nw => nw.node.num_outputs
  | none => 0

/-- Number of input slots of node `i` (0 when the node does not exist). -/
def Graph.inArity (g : Graph) (i : Nat) : Nat :=
  match g.nodes[i]? with
  | some nw => nw.inputs.length
  | none => 0

/-- A list of node ids is dependency-ordered: each node's bound upstream
nodes all occur strictly before it. -/
def GoodOrder (nodes : List NodeWrapper) (ord : List Nat) : Prop :=
  ∀ i (h : i < ord.length), ∀ y ∈ deps nodes ord[i], y ∈ ord.take i

/-! ### The constant-source node (`graph/nodes/constant.rs`)

The sample type `f32` is opaque to this code — samples are only ever
copied, never computed with — so the channel is parametrised by the
sample type `α`. -/

/-- The output channel of `Constant`: a pending count and the constant
value. -/
structure ConstOut (α : Type) where
  count : Nat
  val : α
deriving DecidableEq, Repr

/-- Rust `channel::Out::num_samples` for the constant source. -/
def ConstOut.num_samples {α : Type} (c : ConstOut α) : Nat :=
  c.count

/-- Rust `channel::Out::output` for the constant source: fill the first
`min count dst.length` entries of `dst` with `val`, leave the rest
untouched, return the number written.  (In the source `output` takes
`&self` and a `&mut [f32]`; the destination buffer after the call is
returned alongside the count.) -/
def ConstOut.output {α : Type} (c : ConstOut α) (dst : List α) : Nat × List α :=
  let upper := min c.count dst.length
  (upper, List.replicate upper c.val ++ dst.drop upper)

/-- The `Constant` node: no inputs, one output. -/
structure Constant (α : Type) where
  output : ConstOut α
deriving DecidableEq, Repr

/-- Rust `Node::num_inputs` for `Constant`. -/
def Constant.num_inputs {α : Type} (_ : Constant α) : Nat := 0

/-- Rust `Node::num_outputs` for `Constant`. -/
def Constant.num_outputs {α : Type} (_ : Constant α) : Nat := 1

/-- Rust `Node::run` for `Constant` is a no-op. -/
def Constant.run {α : Type} (c : Constant α) : Constant α := c

/-- Rust `Node::get_output` for `Constant`: channel 0, nothing else. -/
def Constant.get_output {α : Type} (c : Constant α) (idx : Nat) : Option (ConstOut α) :=
  match idx with
  | 0 => some c.output
  | _ => none

/-- A single read transaction against the channel.  In the source
`output` takes the receiver by shared reference (`&self`), so the
channel observed after the call is the very same value; this wrapper
makes that explicit for stating frame properties. -/
def ConstOut.outputCall {α : Type} (c : ConstOut α) (dst : List α) :
    ConstOut α × (Nat × List α) :=
  (c, c.output dst)

/-! ### Basic facts about `deps` and the graph predicates -/

theorem mem_deps_of_input {nodes : List NodeWrapper} {x : Nat} {nw : NodeWrapper}
    {y ch : Nat} (hx : nodes[x]? = some nw) (hmem : some (y, ch) ∈ nw.inputs) :
    y ∈ deps nodes x := by
  unfold deps
  rw [hx]
  exact List.mem_filterMap.mpr ⟨some (y, ch), hmem, rfl⟩

theorem deps_of_mem {nodes : List NodeWrapper} {x y : Nat}
    (h : y ∈ deps nodes x) :
    ∃ nw ch, nodes[x]? = some nw ∧ some (y, ch) ∈ nw.inputs := by
  unfold deps at h
  cases hx : nodes[x]? with
  | none => rw [hx] at h; simp at h
  | some nw =>
    rw [hx] at h
    rcases List.mem_filterMap.mp h with ⟨b, hb, hmap⟩
    cases b with
    | none => simp at hmap
    | some p =>
      cases p with
      | mk y' ch =>
        simp at hmap
        subst hmap
        exact ⟨nw, ch, rfl, hb⟩

theorem dep_lt_of_wf {nodes : List NodeWrapper} (hwf : Wf nodes) {x y : Nat}
    (h : dep nodes x y) : x < nodes.length ∧ y < nodes.length := by
  rcases deps_of_mem h with ⟨nw, ch, hx, -⟩
  have hxlen : x < nodes.length := by
    by_contra hge
    rw [List.getElem?_eq_none (by omega)] at hx
    exact Option.noConfusion hx
  exact ⟨hxlen, hwf x (List.mem_range.mpr hxlen) y h⟩

/-- If every edge strictly decreases the node id, the graph is acyclic.
(Used to discharge `Acyclic` on concrete graphs.) -/
theorem acyclic_of_rank {nodes : List NodeWrapper}
    (h : ∀ x ∈ List.range nodes.length, ∀ y ∈ deps nodes x, y < x) :
    Acyclic nodes := by
  have hlt : ∀ x y, dep nodes x y → y < x := by
    intro x y hxy
    rcases deps_of_mem hxy with ⟨nw, ch, hx, -⟩
    have hxlen : x < nodes.length := by
      by_contra hge
      rw [List.getElem?_eq_none (by omega)] at hx
      exact Option.noConfusion hx
    exact h x (List.mem_range.mpr hxlen) y hxy
  intro x hx
  have : ∀ a b, Relation.TransGen (dep nodes) a b → b < a := by
    intro a b hab
    induction hab with
    | single h1 => exact hlt _ _ h1
    | tail _ h2 ih => exact lt_trans (hlt _ _ h2) ih
  exact absurd (this x x hx) (lt_irrefl x)

/-! ### Restoration and monotonicity along a successful visit

The source inserts `id` into `on_stack` on entry and removes it before
every `Ok` return, so a successful visit leaves `on_stack` exactly as it
found it; `marked` only ever grows. -/

theorem runInputs_ok_of_step {step : TState → Nat → Option (TState × RStatus)}
    (P : TState → TState → Prop)
    (hrefl : ∀ s, P s s)
    (htrans : ∀ a b c, P a b → P b c → P a c)
    (hstep : ∀ s n s', step s n = some (s', .ok) → P s s') :
    ∀ l s id s', runInputs step s id l = some (s', .ok) → P s s' := by
  intro l
  induction l with
  | nil =>
    intro s id s' h
    simp only [runInputs] at h
    cases h
    exact hrefl s
  | cons b rest ih =>
    intro s id s' h
    cases b with
    | none => simp only [runInputs] at h; simp at h
    | some p =>
      cases p with
      | mk next ch =>
        simp only [runInputs] at h
        cases hv : step s next with
        | none => rw [hv] at h; exact Option.noConfusion h
        | some r =>
          rw [hv] at h
          obtain ⟨s₁, st⟩ := r
          cases st with
          | err e => simp at h
          | ok => exact htrans _ _ _ (hstep s next s₁ hv) (ih s₁ id s' h)

theorem visit_ok_frame {nodes : List NodeWrapper} :
    ∀ fuel s id s', topo_sort_visit nodes fuel s id = some (s', .ok) →
      s'.on_stack = s.on_stack ∧ s.marked ⊆ s'.marked := by
  intro fuel
  induction fuel with
  | zero => intro s id s' h; exact Option.noConfusion h
  | succ f ih =>
    intro s id s' h
    simp only [topo_sort_visit] at h
    by_cases h1 : id ∈ s.on_stack
    · rw [if_pos h1] at h; simp at h
    rw [if_neg h1] at h
    by_cases h2 : id ∈ s.marked
    · rw [if_pos h2] at h
      simp only [Option.some.injEq, Prod.mk.injEq, and_true] at h
      subst h
      exact ⟨Finset.erase_insert h1, Finset.Subset.refl _⟩
    rw [if_neg h2] at h
    cases hnw : nodes[id]? with
    | none => rw [hnw] at h; exact Option.noConfusion h
    | some nw =>
      rw [hnw] at h
      simp only at h
      cases hri : runInputs (topo_sort_visit nodes f)
          { s with on_stack := insert id s.on_stack } id nw.inputs with
      | none => rw [hri] at h; exact Option.noConfusion h
      | some r =>
        rw [hri] at h
        obtain ⟨s₂, st⟩ := r
        cases st with
        | err e => simp at h
        | ok =>
          simp only [Option.some.injEq, Prod.mk.injEq, and_true] at h
          subst h
          have hframe := runInputs_ok_of_step
            (fun a b => b.on_stack = a.on_stack ∧ a.marked ⊆ b.marked)
            (fun s => ⟨rfl, Finset.Subset.refl _⟩)
            (fun a b c hab hbc => ⟨hbc.1.trans hab.1, hab.2.trans hbc.2⟩)
            (fun s n s' h => ih s n s' h)
            nw.inputs { s with on_stack := insert id s.on_stack } id s₂ hri
          constructor
          · show s₂.on_stack.erase id = s.on_stack
            rw [hframe.1]
            exact Finset.erase_insert h1
          · exact hframe.2.trans (Finset.subset_insert _ _)

/-! ### Fuel sufficiency

Every nested call pushes a fresh node id (checked against `on_stack`)
that names an existing node, so recursion depth is bounded by the node
count and the fuel `compute_order` passes (`nodes.length + 1`) can never
run out.  This also rules out the `assert!` case (`nodes[id]? = none`)
whenever all bindings are in range. -/

theorem runInputs_no_fuelout {step : TState → Nat → Option (TState × RStatus)}
    (C : Nat → Prop) (S : Finset Nat)
    (hframe : ∀ s n s', step s n = some (s', .ok) → s'.on_stack = s.on_stack)
    (hne : ∀ s n, s.on_stack = S → C n → step s n ≠ none) :
    ∀ l s id, s.on_stack = S → (∀ p ch, some (p, ch) ∈ l → C p) →
      runInputs step s id l ≠ none := by
  intro l
  induction l with
  | nil =>
    intro s id _ _
    simp [runInputs]
  | cons b rest ih =>
    intro s id hS hC
    cases b with
    | none => simp [runInputs]
    | some p =>
      cases p with
      | mk next ch =>
        simp only [runInputs]
        cases hv : step s next with
        | none =>
          exact absurd hv (hne s next hS (hC next ch (List.mem_cons_self _ _)))
        | some r =>
          obtain ⟨s₁, st⟩ := r
          cases st with
          | err e => simp
          | ok =>
            have hS₁ : s₁.on_stack = S := (hframe s next s₁ hv).trans hS
            exact ih s₁ id hS₁ (fun p ch hmem => hC p ch (List.mem_cons_of_mem _ hmem))

theorem visit_no_fuelout {nodes : List NodeWrapper} (hwf : Wf nodes) :
    ∀ fuel s id, id < nodes.length → s.on_stack ⊆ Finset.range nodes.length →
      nodes.length + 1 ≤ fuel + s.on_stack.card →
      topo_sort_visit nodes fuel s id ≠ none := by
  intro fuel
  induction fuel with
  | zero =>
    intro s id _ hsub hfuel
    have := Finset.card_le_card hsub
    rw [Finset.card_range] at this
    omega
  | succ f ih =>
    intro s id hid hsub hfuel
    simp only [topo_sort_visit]
    by_cases h1 : id ∈ s.on_stack
    · rw [if_pos h1]; simp
    rw [if_neg h1]
    by_cases h2 : id ∈ s.marked
    · rw [if_pos h2]; simp
    rw [if_neg h2]
    rw [List.getElem?_eq_getElem hid]
    simp only
    have hri : runInputs (topo_sort_visit nodes f)
        { s with on_stack := insert id s.on_stack } id nodes[id].inputs ≠ none := by
      refine runInputs_no_fuelout (fun n => n < nodes.length) (insert id s.on_stack)
        (fun s n s' h => (visit_ok_frame f s n s' h).1)
        (fun s n hS hn => ih s n hn ?_ ?_) _ _ id rfl ?_
      · rw [hS]
        exact Finset.insert_subset_iff.mpr ⟨Finset.mem_range.mpr hid, hsub⟩
      · rw [hS, Finset.card_insert_of_not_mem h1]
        omega
      · intro p ch hmem
        have hdep : p ∈ deps nodes id :=
          mem_deps_of_input (List.getElem?_eq_getElem hid) hmem
        exact hwf id (List.mem_range.mpr hid) p hdep
    cases hr : runInputs (topo_sort_visit nodes f)
        { s with on_stack := insert id s.on_stack } id nodes[id].inputs with
    | none => exact absurd hr hri
    | some r =>
      obtain ⟨s₂, st⟩ := r
      cases st with
      | err e => simp
      | ok => simp

theorem loop_no_fuelout {nodes : List NodeWrapper} (hwf : Wf nodes) :
    ∀ ids s, s.on_stack = ∅ → (∀ id ∈ ids, id < nodes.length) →
      topo_sort_loop nodes (nodes.length + 1) s ids ≠ none := by
  intro ids
  induction ids with
  | nil => intro s _ _; simp [topo_sort_loop]
  | cons id rest ih =>
    intro s hS hids
    simp only [topo_sort_loop]
    by_cases h1 : id ∈ s.marked
    · rw [if_pos h1]
      exact ih s hS (fun x hx => hids x (List.mem_cons_of_mem _ hx))
    rw [if_neg h1]
    have hvne : topo_sort_visit nodes (nodes.length + 1) s id ≠ none := by
      refine visit_no_fuelout hwf _ s id (hids id (List.mem_cons_self _ _)) ?_ ?_
      · rw [hS]; exact Finset.empty_subset _
      · rw [hS]; simp
    cases hv : topo_sort_visit nodes (nodes.length + 1) s id with
    | none => exact absurd hv hvne
    | some r =>
      obtain ⟨s', st⟩ := r
      cases st with
      | err e => simp
      | ok =>
        have hS' : s'.on_stack = ∅ := ((visit_ok_frame _ s id s' hv).1).trans hS
        exact ih s' hS' (fun x hx => hids x (List.mem_cons_of_mem _ hx))

theorem compute_order_isSome {g : Graph} (hwf : Wf g.nodes) :
    g.compute_order.isSome := by
  unfold Graph.compute_order
  cases hl : topo_sort_loop g.nodes (g.nodes.length + 1) ⟨∅, ∅, []⟩
      (List.range g.nodes.length) with
  | none =>
    exact absurd hl (loop_no_fuelout hwf _ _ rfl (fun id hid => List.mem_range.mp hid))
  | some r =>
    obtain ⟨s, st⟩ := r
    cases st with
    | err e => simp
    | ok => simp

/-! ### Soundness of the two traversal errors

A `CycleDetected` result really does come from a dependency cycle, an
`IncompleteGraph j` result really does name a node with an unbound input
slot, and the traversal produces no other error. -/

/-- What any error produced by the traversal means. -/
def ErrSound (nodes : List NodeWrapper) (e : Error) : Prop :=
  (e = .CycleDetected ∧ ∃ z, Relation.TransGen (dep nodes) z z) ∨
  (∃ j nw, e = .IncompleteGraph j ∧ nodes[j]? = some nw ∧ none ∈ nw.inputs)

theorem runInputs_err_sound {nodes : List NodeWrapper}
    {step : TState → Nat → Option (TState × RStatus)}
    (hframe : ∀ s n s', step s n = some (s', .ok) → s'.on_stack = s.on_stack)
    (hstep : ∀ s n s' e, step s n = some (s', .err e) →
      (∀ x ∈ s.on_stack, Relation.TransGen (dep nodes) x n) → ErrSound nodes e) :
    ∀ l s id s' e, runInputs step s id l = some (s', .err e) →
      (∀ x ∈ s.on_stack, Relation.TransGen (dep nodes) x id ∨ x = id) →
      (∀ p ch, some (p, ch) ∈ l → dep nodes id p) →
      ErrSound nodes e ∨ (e = .IncompleteGraph id ∧ none ∈ l) := by
  intro l
  induction l with
  | nil => intro s id s' e h _ _; simp [runInputs] at h
  | cons b rest ih =>
    intro s id s' e h hinv hl
    cases b with
    | none =>
      simp only [runInputs, Option.some.injEq, Prod.mk.injEq] at h
      exact Or.inr ⟨(RStatus.err.inj h.2).symm, List.mem_cons_self _ _⟩
    | some p =>
      cases p with
      | mk next ch =>
        simp only [runInputs] at h
        cases hv : step s next with
        | none => rw [hv] at h; exact Option.noConfusion h
        | some r =>
          rw [hv] at h
          obtain ⟨s₁, st⟩ := r
          cases st with
          | err e₁ =>
            simp only [Option.some.injEq, Prod.mk.injEq] at h
            have he : e = e₁ := (RStatus.err.inj h.2).symm
            subst he
            refine Or.inl (hstep s next s₁ e hv ?_)
            intro x hx
            rcases hinv x hx with htg | rfl
            · exact htg.tail (hl next ch (List.mem_cons_self _ _))
            · exact Relation.TransGen.single (hl next ch (List.mem_cons_self _ _))
          | ok =>
            have hS₁ : s₁.on_stack = s.on_stack := hframe s next s₁ hv
            have := ih s₁ id s' e h (by rw [hS₁]; exact hinv)
              (fun p ch hmem => hl p ch (List.mem_cons_of_mem _ hmem))
            rcases this with hc | ⟨he, hm⟩
            · exact Or.inl hc
            · exact Or.inr ⟨he, List.mem_cons_of_mem _ hm⟩

theorem visit_err_sound {nodes : List NodeWrapper} :
    ∀ fuel s id s' e, topo_sort_visit nodes fuel s id = some (s', .err e) →
      (∀ x ∈ s.on_stack, Relation.TransGen (dep nodes) x id) →
      ErrSound nodes e := by
  intro fuel
  induction fuel with
  | zero => intro s id s' e h _; exact Option.noConfusion h
  | succ f ih =>
    intro s id s' e h hinv
    simp only [topo_sort_visit] at h
    by_cases h1 : id ∈ s.on_stack
    · rw [if_pos h1] at h
      simp only [Option.some.injEq, Prod.mk.injEq] at h
      have he : e = .CycleDetected := (RStatus.err.inj h.2).symm
      subst he
      exact Or.inl ⟨rfl, id, hinv id h1⟩
    rw [if_neg h1] at h
    by_cases h2 : id ∈ s.marked
    · rw [if_pos h2] at h; simp at h
    rw [if_neg h2] at h
    cases hnw : nodes[id]? with
    | none => rw [hnw] at h; exact Option.noConfusion h
    | some nw =>
      rw [hnw] at h
      simp only at h
      cases hri : runInputs (topo_sort_visit nodes f)
          { s with on_stack := insert id s.on_stack } id nw.inputs with
      | none => rw [hri] at h; exact Option.noConfusion h
      | some r =>
        rw [hri] at h
        obtain ⟨s₂, st⟩ := r
        cases st with
        | ok => simp at h
        | err e₂ =>
          simp only [Option.some.injEq, Prod.mk.injEq] at h
          have he : e = e₂ := (RStatus.err.inj h.2).symm
          subst he
          have := runInputs_err_sound
            (fun s n s' h => (visit_ok_frame f s n s' h).1)
            (fun s n s' e hv hin => ih s n s' e hv hin)
            nw.inputs { s with on_stack := insert id s.on_stack } id s₂ e hri
            ?_ (fun p ch hmem => mem_deps_of_input hnw hmem)
          · rcases this with hc | ⟨he, hm⟩
            · exact hc
            · exact Or.inr ⟨id, nw, he, hnw, hm⟩
          · intro x hx
            rcases Finset.mem_insert.mp hx with rfl | hx
            · exact Or.inr rfl
            · exact Or.inl (hinv x hx)

theorem loop_err_sound {nodes : List NodeWrapper} {fuel : Nat} :
    ∀ ids s s' e, topo_sort_loop nodes fuel s ids = some (s', .err e) →
      s.on_stack = ∅ → ErrSound nodes e := by
  intro ids
  induction ids with
  | nil => intro s s' e h _; simp [topo_sort_loop] at h
  | cons id rest ih =>
    intro s s' e h hS
    simp only [topo_sort_loop] at h
    by_cases h1 : id ∈ s.marked
    · rw [if_pos h1] at h
      exact ih s s' e h hS
    rw [if_neg h1] at h
    cases hv : topo_sort_visit nodes fuel s id with
    | none => rw [hv] at h; exact Option.noConfusion h
    | some r =>
      rw [hv] at h
      obtain ⟨s₁, st⟩ := r
      cases st with
      | err e₁ =>
        simp only [Option.some.injEq, Prod.mk.injEq] at h
        have he : e = e₁ := (RStatus.err.inj h.2).symm
        subst he
        exact visit_err_sound fuel s id s₁ e hv (by rw [hS]; simp)
      | ok =>
        have hS₁ : s₁.on_stack = ∅ := ((visit_ok_frame fuel s id s₁ hv).1).trans hS
        exact ih s₁ s' e h hS₁

/-! ### The traversal invariant

Throughout `compute_order`, the order built so far is duplicate-free,
agrees with `marked` as a set, names only existing, fully-bound nodes,
and is dependency-ordered. -/

theorem lt_of_getElem?_some {α : Type} {l : List α} {i : Nat} {a : α}
    (h : l[i]? = some a) : i < l.length := by
  by_contra hge
  rw [List.getElem?_eq_none (by omega)] at h
  exact Option.noConfusion h

theorem mem_of_getElem?_some {α : Type} {l : List α} {i : Nat} {a : α}
    (h : l[i]? = some a) : a ∈ l := by
  have hi := lt_of_getElem?_some h
  rw [List.getElem?_eq_getElem hi] at h
  have := Option.some.inj h
  rw [← this]
  exact List.getElem_mem hi

/-- Invariant of the traversal state. -/
structure Inv (nodes : List NodeWrapper) (s : TState) : Prop where
  nodup : s.order.Nodup
  sync : ∀ x, x ∈ s.marked ↔ x ∈ s.order
  lt : ∀ x ∈ s.order, x < nodes.length
  bound : ∀ x ∈ s.order, ∃ nw, nodes[x]? = some nw ∧ ∀ b ∈ nw.inputs, b ≠ none
  good : GoodOrder nodes s.order

theorem inv_init {nodes : List NodeWrapper} : Inv nodes ⟨∅, ∅, []⟩ := by
  refine ⟨List.nodup_nil, ?_, ?_, ?_, ?_⟩
  · intro x; simp
  · intro x hx; simp at hx
  · intro x hx; simp at hx
  · intro i h; simp at h

theorem goodOrder_append {nodes : List NodeWrapper} {ord : List Nat} {id : Nat}
    (hg : GoodOrder nodes ord) (hdeps : ∀ y ∈ deps nodes id, y ∈ ord) :
    GoodOrder nodes (ord ++ [id]) := by
  intro i h y hy
  rw [List.length_append, List.length_singleton] at h
  by_cases hi : i < ord.length
  · have hb : i < (ord ++ [id]).length := by simp; omega
    have hget : (ord ++ [id])[i] = ord[i] := List.getElem_append_left hi
    rw [hget] at hy
    rw [List.take_append_of_le_length (le_of_lt hi)]
    exact hg i hi y hy
  · have hie : i = ord.length := by omega
    subst hie
    have hb : ord.length < (ord ++ [id]).length := by simp
    have hget : (ord ++ [id])[ord.length] = id := by
      rw [List.getElem_append_right (le_refl _)]
      simp
    rw [hget] at hy
    rw [List.take_left]
    exact hdeps y hy

/-- A successful pass over an input list means none of the slots were
unbound. -/
theorem runInputs_ok_no_none {step : TState → Nat → Option (TState × RStatus)} :
    ∀ l s id s', runInputs step s id l = some (s', .ok) → ∀ b ∈ l, b ≠ none := by
  intro l
  induction l with
  | nil => intro s id s' _ b hb; simp at hb
  | cons b rest ih =>
    intro s id s' h c hc
    cases b with
    | none => simp only [runInputs] at h; simp at h
    | some p =>
      cases p with
      | mk next ch =>
        simp only [runInputs] at h
        cases hv : step s next with
        | none => rw [hv] at h; exact Option.noConfusion h
        | some r =>
          rw [hv] at h
          obtain ⟨s₁, st⟩ := r
          cases st with
          | err e => simp at h
          | ok =>
            rcases List.mem_cons.mp hc with rfl | hc
            · exact fun hfalse => Option.noConfusion hfalse
            · exact ih s₁ id s' h c hc

theorem runInputs_ok_bundle {nodes : List NodeWrapper}
    {step : TState → Nat → Option (TState × RStatus)}
    (hstep : ∀ s n s', step s n = some (s', .ok) → Inv nodes s →
      Inv nodes s' ∧ s'.on_stack = s.on_stack ∧ s.marked ⊆ s'.marked ∧
      n ∈ s'.marked ∧ (∀ z ∈ s.on_stack, z ∈ s'.marked → z ∈ s.marked)) :
    ∀ l s id s', runInputs step s id l = some (s', .ok) → Inv nodes s →
      Inv nodes s' ∧ s'.on_stack = s.on_stack ∧ s.marked ⊆ s'.marked ∧
      (∀ p ch, some (p, ch) ∈ l → p ∈ s'.marked) ∧
      (∀ z ∈ s.on_stack, z ∈ s'.marked → z ∈ s.marked) := by
  intro l
  induction l with
  | nil =>
    intro s id s' h hInv
    simp only [runInputs, Option.some.injEq, Prod.mk.injEq, and_true] at h
    subst h
    refine ⟨hInv, rfl, Finset.Subset.refl _, ?_, fun z _ hz => hz⟩
    intro p ch hmem; simp at hmem
  | cons b rest ih =>
    intro s id s' h hInv
    cases b with
    | none => simp only [runInputs] at h; simp at h
    | some p =>
      cases p with
      | mk next ch =>
        simp only [runInputs] at h
        cases hv : step s next with
        | none => rw [hv] at h; exact Option.noConfusion h
        | some r =>
          rw [hv] at h
          obtain ⟨s₁, st⟩ := r
          cases st with
          | err e => simp at h
          | ok =>
            obtain ⟨hInv₁, hS₁, hM₁, hnext, hZ₁⟩ := hstep s next s₁ hv hInv
            obtain ⟨hInv', hS', hM', hmem', hZ'⟩ := ih s₁ id s' h hInv₁
            refine ⟨hInv', hS'.trans hS₁, hM₁.trans hM', ?_, ?_⟩
            · intro p ch' hmem
              rcases List.mem_cons.mp hmem with heq | hmem
              · cases heq
                exact hM' hnext
              · exact hmem' p ch' hmem
            · intro z hz hz'
              exact hZ₁ z hz (hZ' z (by rw [hS₁]; exact hz) hz')

theorem visit_ok_bundle {nodes : List NodeWrapper} :
    ∀ fuel s id s', topo_sort_visit nodes fuel s id = some (s', .ok) → Inv nodes s →
      Inv nodes s' ∧ s'.on_stack = s.on_stack ∧ s.marked ⊆ s'.marked ∧
      id ∈ s'.marked ∧ (∀ z ∈ s.on_stack, z ∈ s'.marked → z ∈ s.marked) := by
  intro fuel
  induction fuel with
  | zero => intro s id s' h _; exact Option.noConfusion h
  | succ f ih =>
    intro s id s' h hInv
    simp only [topo_sort_visit] at h
    by_cases h1 : id ∈ s.on_stack
    · rw [if_pos h1] at h; simp at h
    rw [if_neg h1] at h
    by_cases h2 : id ∈ s.marked
    · rw [if_pos h2] at h
      simp only [Option.some.injEq, Prod.mk.injEq, and_true] at h
      subst h
      exact ⟨⟨hInv.nodup, hInv.sync, hInv.lt, hInv.bound, hInv.good⟩,
        Finset.erase_insert h1, Finset.Subset.refl _, h2, fun z _ hz => hz⟩
    rw [if_neg h2] at h
    cases hnw : nodes[id]? with
    | none => rw [hnw] at h; exact Option.noConfusion h
    | some nw =>
      rw [hnw] at h
      simp only at h
      cases hri : runInputs (topo_sort_visit nodes f)
          { s with on_stack := insert id s.on_stack } id nw.inputs with
      | none => rw [hri] at h; exact Option.noConfusion h
      | some r =>
        rw [hri] at h
        obtain ⟨s₂, st⟩ := r
        cases st with
        | err e => simp at h
        | ok =>
          simp only [Option.some.injEq, Prod.mk.injEq, and_true] at h
          subst h
          have hInv₁ : Inv nodes { s with on_stack := insert id s.on_stack } :=
            ⟨hInv.nodup, hInv.sync, hInv.lt, hInv.bound, hInv.good⟩
          obtain ⟨hInv₂, hS₂, hM₂, hmem₂, hZ₂⟩ :=
            runInputs_ok_bundle (fun s n s' hv hi => ih s n s' hv hi)
              nw.inputs { s with on_stack := insert id s.on_stack } id s₂ hri hInv₁
          have hidlen : id < nodes.length := lt_of_getElem?_some hnw
      -- `id` never gets marked by the nested visits: it is on the stack.
      -- (`hZ₂` tracks exactly this.)
          have hid₂ : id ∉ s₂.marked := by
            intro hmem
            exact h2 (hZ₂ id (Finset.mem_insert_self _ _) hmem)
          have hidord : id ∉ s₂.order := fun hmem => hid₂ ((hInv₂.sync id).mpr hmem)
          have hdeps₂ : ∀ y ∈ deps nodes id, y ∈ s₂.order := by
            intro y hy
            rcases deps_of_mem hy with ⟨nw', ch, hnw', hmem⟩
            rw [hnw] at hnw'
            cases hnw'
            exact (hInv₂.sync y).mp (hmem₂ y ch hmem)
          refine ⟨⟨?_, ?_, ?_, ?_, ?_⟩, ?_, ?_, ?_, ?_⟩
          · rw [List.nodup_append]
            exact ⟨hInv₂.nodup, List.nodup_singleton _,
              fun a ha hmem => hidord (by rwa [List.mem_singleton.mp hmem] at ha)⟩
          · intro x
            simp only [Finset.mem_insert, List.mem_append, List.mem_singleton]
            rw [hInv₂.sync x]
            tauto
          · intro x hx
            rcases List.mem_append.mp hx with hx | hx
            · exact hInv₂.lt x hx
            · rw [List.mem_singleton.mp hx]; exact hidlen
          · intro x hx
            rcases List.mem_append.mp hx with hx | hx
            · exact hInv₂.bound x hx
            · rw [List.mem_singleton.mp hx]
              exact ⟨nw, hnw, runInputs_ok_no_none nw.inputs _ id s₂ hri⟩
          · exact goodOrder_append hInv₂.good hdeps₂
          · show s₂.on_stack.erase id = s.on_stack
            rw [hS₂]
            exact Finset.erase_insert h1
          · exact hM₂.trans (Finset.subset_insert _ _)
          · exact Finset.mem_insert_self _ _
          · intro z hz hz'
            rcases Finset.mem_insert.mp hz' with rfl | hz'
            · exact absurd hz h1
            · exact hZ₂ z (Finset.mem_insert_of_mem hz) hz'

theorem loop_ok_bundle {nodes : List NodeWrapper} {fuel : Nat} :
    ∀ ids s s', topo_sort_loop nodes fuel s ids = some (s', .ok) → Inv nodes s →
      Inv nodes s' ∧ s'.on_stack = s.on_stack ∧ s.marked ⊆ s'.marked ∧
      ∀ id ∈ ids, id ∈ s'.marked := by
  intro ids
  induction ids with
  | nil =>
    intro s s' h hInv
    simp only [topo_sort_loop, Option.some.injEq, Prod.mk.injEq, and_true] at h
    subst h
    refine ⟨hInv, rfl, Finset.Subset.refl _, ?_⟩
    intro id hid; simp at hid
  | cons id rest ih =>
    intro s s' h hInv
    simp only [topo_sort_loop] at h
    by_cases h1 : id ∈ s.marked
    · rw [if_pos h1] at h
      obtain ⟨hInv', hS', hM', hmem'⟩ := ih s s' h hInv
      refine ⟨hInv', hS', hM', ?_⟩
      intro x hx
      rcases List.mem_cons.mp hx with rfl | hx
      · exact hM' h1
      · exact hmem' x hx
    rw [if_neg h1] at h
    cases hv : topo_sort_visit nodes fuel s id with
    | none => rw [hv] at h; exact Option.noConfusion h
    | some r =>
      rw [hv] at h
      obtain ⟨s₁, st⟩ := r
      cases st with
      | err e => simp at h
      | ok =>
        obtain ⟨hInv₁, hS₁, hM₁, hid₁, _⟩ := visit_ok_bundle fuel s id s₁ hv hInv
        obtain ⟨hInv', hS', hM', hmem'⟩ := ih s₁ s' h hInv₁
        refine ⟨hInv', hS'.trans hS₁, hM₁.trans hM', ?_⟩
        intro x hx
        rcases List.mem_cons.mp hx with rfl | hx
        · exact hM' hid₁
        · exact hmem' x hx

/-! ### From `GoodOrder` to positions and acyclicity -/

theorem indexOf_lt_of_mem_take {l : List Nat} {i y : Nat} (h : y ∈ l.take i) :
    l.indexOf y < i := by
  induction l generalizing i with
  | nil => simp at h
  | cons a t ih =>
    cases i with
    | zero => simp at h
    | succ j =>
      rw [List.take_succ_cons] at h
      by_cases hya : y = a
      · subst hya
        simp [List.indexOf_cons_self]
      · rcases List.mem_cons.mp h with rfl | h
        · exact absurd rfl hya
        · rw [List.indexOf_cons_ne _ (fun he => hya he.symm)]
          have := ih h
          omega

theorem goodOrder_rel {nodes : List NodeWrapper} {ord : List Nat}
    (hg : GoodOrder nodes ord) {x y : Nat} (hdep : dep nodes x y) (hx : x ∈ ord) :
    ord.indexOf y < ord.indexOf x := by
  have hlen : ord.indexOf x < ord.length := List.indexOf_lt_length.mpr hx
  have hget : ord[ord.indexOf x] = x := List.getElem_indexOf hlen
  have := hg (ord.indexOf x) hlen y (by rw [hget]; exact hdep)
  exact indexOf_lt_of_mem_take this

theorem acyclic_of_goodOrder {nodes : List NodeWrapper} {ord : List Nat}
    (hg : GoodOrder nodes ord) (hmem : ∀ x y, dep nodes x y → x ∈ ord) :
    Acyclic nodes := by
  intro z hz
  have hlt : ∀ a b, Relation.TransGen (dep nodes) a b →
      ord.indexOf b < ord.indexOf a := by
    intro a b hab
    induction hab with
    | single h1 => exact goodOrder_rel hg h1 (hmem _ _ h1)
    | tail _ h2 ih => exact lt_trans (goodOrder_rel hg h2 (hmem _ _ h2)) ih
  exact absurd (hlt z z hz) (lt_irrefl _)

/-! ### `compute_order`: top-level facts -/

theorem compute_order_err_spec {g g' : Graph} {e : Error}
    (h : g.compute_order = some (g', .err e)) :
    ErrSound g.nodes e ∧ g'.nodes = g.nodes ∧ g'.dirty = g.dirty := by
  unfold Graph.compute_order at h
  cases hl : topo_sort_loop g.nodes (g.nodes.length + 1) ⟨∅, ∅, []⟩
      (List.range g.nodes.length) with
  | none => rw [hl] at h; exact Option.noConfusion h
  | some r =>
    rw [hl] at h
    obtain ⟨s, st⟩ := r
    cases st with
    | ok => simp at h
    | err e₁ =>
      simp only [Option.some.injEq, Prod.mk.injEq] at h
      obtain ⟨hg', he⟩ := h
      cases RStatus.err.inj he
      subst hg'
      exact ⟨loop_err_sound _ _ s e hl rfl, rfl, rfl⟩

theorem compute_order_ok_props {g g' : Graph}
    (h : g.compute_order = some (g', .ok)) :
    g'.nodes = g.nodes ∧ g'.dirty = false ∧ g'.order.Nodup ∧
    GoodOrder g.nodes g'.order ∧
    (∀ x ∈ g'.order, x < g.nodes.length) ∧
    (∀ id, id < g.nodes.length → id ∈ g'.order) ∧
    (∀ x ∈ g'.order, ∃ nw, g.nodes[x]? = some nw ∧ ∀ b ∈ nw.inputs, b ≠ none) := by
  unfold Graph.compute_order at h
  cases hl : topo_sort_loop g.nodes (g.nodes.length + 1) ⟨∅, ∅, []⟩
      (List.range g.nodes.length) with
  | none => rw [hl] at h; exact Option.noConfusion h
  | some r =>
    rw [hl] at h
    obtain ⟨s, st⟩ := r
    cases st with
    | err e₁ => simp at h
    | ok =>
      simp only [Option.some.injEq, Prod.mk.injEq, and_true] at h
      subst h
      obtain ⟨hInv, -, -, hall⟩ := loop_ok_bundle _ _ s hl inv_init
      refine ⟨rfl, rfl, hInv.nodup, hInv.good, hInv.lt, ?_, hInv.bound⟩
      intro id hid
      exact (hInv.sync id).mp (hall id (List.mem_range.mpr hid))

theorem compute_order_ok_perm {g g' : Graph}
    (h : g.compute_order = some (g', .ok)) :
    g'.order.Perm (List.range g.nodes.length) := by
  obtain ⟨-, -, hnodup, -, hlt, hcover, -⟩ := compute_order_ok_props h
  rw [List.perm_ext_iff_of_nodup hnodup (List.nodup_range _)]
  intro a
  constructor
  · intro ha; exact List.mem_range.mpr (hlt a ha)
  · intro ha; exact hcover a (List.mem_range.mp ha)

theorem compute_order_ok_acyclic {g g' : Graph}
    (h : g.compute_order = some (g', .ok)) : Acyclic g.nodes := by
  obtain ⟨-, -, -, hgood, -, hcover, -⟩ := compute_order_ok_props h
  refine acyclic_of_goodOrder hgood ?_
  intro x y hxy
  rcases deps_of_mem hxy with ⟨nw, ch, hx, -⟩
  exact hcover x (lt_of_getElem?_some hx)

theorem compute_order_ok_complete {g g' : Graph}
    (h : g.compute_order = some (g', .ok)) : Complete g.nodes := by
  obtain ⟨-, -, -, -, -, hcover, hbound⟩ := compute_order_ok_props h
  intro nw hmem b hb
  rcases List.mem_iff_getElem.mp hmem with ⟨i, hi, hget⟩
  rcases hbound i (hcover i hi) with ⟨nw', hnw', hall⟩
  rw [List.getElem?_eq_getElem hi, hget] at hnw'
  cases hnw'
  exact hall b hb

/-! ### Example graphs used as concrete inputs -/

/-- A two-node chain: node 0 is a source (0 inputs), node 1 has its one
input bound to node 0's output 0. -/
def gChain : Graph :=
  { nodes := [⟨⟨0, 1⟩, []⟩, ⟨⟨1, 1⟩, [some (0, 0)]⟩], order := [], dirty := true }

/-- Two fully-bound nodes depending on each other (a 2-cycle). -/
def gMutual : Graph :=
  { nodes := [⟨⟨1, 1⟩, [some (1, 0)]⟩, ⟨⟨1, 1⟩, [some (0, 0)]⟩], order := [], dirty := true }

/-- Node 0 is a source; node 1 has an unbound input. -/
def gMissing : Graph :=
  { nodes := [⟨⟨0, 1⟩, []⟩, ⟨⟨1, 1⟩, [none]⟩], order := [], dirty := true }

/-- Node 0 has an unbound input; node 1 is a self-loop (bound to its own
output). -/
def c5g : Graph :=
  { nodes := [⟨⟨1, 1⟩, [none]⟩, ⟨⟨1, 1⟩, [some (1, 0)]⟩], order := [], dirty := true }

/-- Node 0 is a self-loop; node 1 has an unbound input. -/
def c6g : Graph :=
  { nodes := [⟨⟨1, 1⟩, [some (0, 0)]⟩, ⟨⟨1, 1⟩, [none]⟩], order := [], dirty := true }

/-! ### Claim C1 -/

/-- C1: for every acyclic graph (with in-range bindings, an invariant of
every API-reachable graph) in which every input slot of every node is
bound, `compute_order` succeeds, the resulting cached order contains
every NodeID exactly once, and for every bound input of node X pointing
to node Y, Y appears strictly earlier in the order than X. -/
theorem c1_compute_order_correct {g : Graph} (hwf : Wf g.nodes)
    (hc : Complete g.nodes) (ha : Acyclic g.nodes) :
    ∃ g', g.compute_order = some (g', .ok) ∧
      g'.order.Perm (List.range g.nodes.length) ∧
      (∀ x y, dep g.nodes x y → g'.order.indexOf y < g'.order.indexOf x) := by
  obtain ⟨r, hr⟩ := Option.isSome_iff_exists.mp (compute_order_isSome hwf)
  obtain ⟨g', st⟩ := r
  cases st with
  | err e =>
    obtain ⟨hsound, -, -⟩ := compute_order_err_spec hr
    rcases hsound with ⟨-, z, hz⟩ | ⟨j, nw, -, hnw, hnone⟩
    · exact absurd hz (ha z)
    · exact absurd rfl (hc nw (mem_of_getElem?_some hnw) none hnone)
  | ok =>
    obtain ⟨-, -, -, hgood, -, hcover, -⟩ := compute_order_ok_props hr
    refine ⟨g', hr, compute_order_ok_perm hr, ?_⟩
    intro x y hxy
    have hx : x ∈ g'.order := by
      rcases deps_of_mem hxy with ⟨nw, ch, hget, -⟩
      exact hcover x (lt_of_getElem?_some hget)
    exact goodOrder_rel hgood hxy hx

/-- Witness for C1 at the two-node chain `gChain`. -/
theorem c1_witness :
    Wf gChain.nodes ∧ Complete gChain.nodes ∧ Acyclic gChain.nodes ∧
    ∃ g', gChain.compute_order = some (g', .ok) ∧
      g'.order.Perm (List.range gChain.nodes.length) ∧
      (∀ x y, dep gChain.nodes x y → g'.order.indexOf y < g'.order.indexOf x) :=
  ⟨by decide, by decide, acyclic_of_rank (by decide),
   c1_compute_order_correct (by decide) (by decide) (acyclic_of_rank (by decide))⟩

/-! ### Claim C5 -/

/-- C5 counterexample: `c5g` contains a dependency cycle among its bound
inputs (node 1 is bound to its own output), yet `compute_order` fails
with `IncompleteGraph 0`, not `CycleDetected`, because the traversal
reaches node 0's unbound input first. -/
theorem c5_counterexample :
    Relation.TransGen (dep c5g.nodes) 1 1 ∧
    c5g.compute_order = some (c5g, .err (.IncompleteGraph 0)) :=
  ⟨Relation.TransGen.single (by decide), by decide⟩

/-- C5 (amended): for every fully-bound graph (with in-range bindings)
containing a dependency cycle — including self-loops — `compute_order`
fails with `CycleDetected`. -/
theorem c5_cycle_detected {g : Graph} (hwf : Wf g.nodes) (hc : Complete g.nodes)
    (hcyc : ∃ z, Relation.TransGen (dep g.nodes) z z) :
    ∃ g', g.compute_order = some (g', .err .CycleDetected) := by
  obtain ⟨r, hr⟩ := Option.isSome_iff_exists.mp (compute_order_isSome hwf)
  obtain ⟨g', st⟩ := r
  cases st with
  | ok =>
    obtain ⟨z, hz⟩ := hcyc
    exact absurd hz (compute_order_ok_acyclic hr z)
  | err e =>
    obtain ⟨hsound, -, -⟩ := compute_order_err_spec hr
    rcases hsound with ⟨rfl, -⟩ | ⟨j, nw, -, hnw, hnone⟩
    · exact ⟨g', hr⟩
    · exact absurd rfl (hc nw (mem_of_getElem?_some hnw) none hnone)

/-- Witness for the amended C5 at the fully-bound 2-cycle `gMutual`. -/
theorem c5_witness :
    Wf gMutual.nodes ∧ Complete gMutual.nodes ∧
    (∃ z, Relation.TransGen (dep gMutual.nodes) z z) ∧
    ∃ g', gMutual.compute_order = some (g', .err .CycleDetected) := by
  have h01 : dep gMutual.nodes 0 1 := by decide
  have h10 : dep gMutual.nodes 1 0 := by decide
  have hcyc : ∃ z, Relation.TransGen (dep gMutual.nodes) z z :=
    ⟨0, Relation.TransGen.head h01 (Relation.TransGen.single h10)⟩
  exact ⟨by decide, by decide, hcyc, c5_cycle_detected (by decide) (by decide) hcyc⟩

/-! ### Claim C6 -/

/-- C6 counterexample: in `c6g`, node 1 has an unbound input slot, yet
`compute_order` fails with `CycleDetected` (node 0's self-loop is found
first), not with `IncompleteGraph 1`. -/
theorem c6_counterexample :
    c6g.nodes[1]? = some ⟨⟨1, 1⟩, [none]⟩ ∧
    c6g.compute_order = some (c6g, .err .CycleDetected) := by
  decide

/-- C6 (amended): for every acyclic graph (with in-range bindings) in
which some node has an unbound input slot, `compute_order` fails with
`IncompleteGraph j` where `j` is a node with an unbound input slot (the
first such node the traversal reaches). -/
theorem c6_incomplete_graph {g : Graph} (hwf : Wf g.nodes) (ha : Acyclic g.nodes)
    (hinc : ¬ Complete g.nodes) :
    ∃ g' j nw, g.compute_order = some (g', .err (.IncompleteGraph j)) ∧
      g.nodes[j]? = some nw ∧ none ∈ nw.inputs := by
  obtain ⟨r, hr⟩ := Option.isSome_iff_exists.mp (compute_order_isSome hwf)
  obtain ⟨g', st⟩ := r
  cases st with
  | ok => exact absurd (compute_order_ok_complete hr) hinc
  | err e =>
    obtain ⟨hsound, -, -⟩ := compute_order_err_spec hr
    rcases hsound with ⟨-, z, hz⟩ | ⟨j, nw, rfl, hnw, hnone⟩
    · exact absurd hz (ha z)
    · exact ⟨g', j, nw, hr, hnw, hnone⟩

/-- Witness for the amended C6 at `gMissing`. -/
theorem c6_witness :
    Wf gMissing.nodes ∧ Acyclic gMissing.nodes ∧ ¬ Complete gMissing.nodes ∧
    ∃ g' j nw, gMissing.compute_order = some (g', .err (.IncompleteGraph j)) ∧
      gMissing.nodes[j]? = some nw ∧ none ∈ nw.inputs :=
  ⟨by decide, acyclic_of_rank (by decide), by decide,
   c6_incomplete_graph (by decide) (acyclic_of_rank (by decide)) (by decide)⟩

/-! ### Claims C2 and C3

The graph below is built through the API: add a 1-in/1-out node (id 0),
add a 0-in/1-out source (id 1), patch `1.0 → 0.0`, and run
`compute_order` successfully (order `[1, 0]`, dirty cleared).  Patching
the self-loop `0.0 → 0.0` into the clean graph then replaces the binding
— and, because `patch` never touches `dirty`, leaves `dirty = false`. -/

/-- Step 1: `Graph::new().add_node(⟨1,1⟩)`. -/
def gA : Graph × Nat := Graph.new.add_node ⟨1, 1⟩

/-- Step 2: add the 0-in/1-out source. -/
def gB : Graph × Nat := gA.1.add_node ⟨0, 1⟩

/-- Step 3: patch output 0 of node 1 into input 0 of node 0. -/
def gP : Graph × RStatus := gB.1.patch 1 0 0 0

/-- The state after a successful `compute_order` on `gP`: order `[1, 0]`,
dirty `false`. -/
def gClean : Graph :=
  { nodes := [⟨⟨1, 1⟩, [some (1, 0)]⟩, ⟨⟨0, 1⟩, []⟩], order := [1, 0], dirty := false }

/-- The clean graph after patching node 0's own output into its own
input (a self-loop, replacing the previous binding). -/
def gCycled : Graph := (gClean.patch 0 0 0 0).1

/-- The result graph of the failing `compute_order` on `gCycled`: the
cached order has been cleared, nothing was appended before the cycle was
found. -/
def gFailed : Graph := { gCycled with order := [] }

/-- C2 counterexample: `gCycled` is an API-reachable state with cached
order `[1, 0]`; `compute_order` on it fails with `CycleDetected`, and
the previously cached order is NOT left as it was — it has been cleared
(and `dirty`, `false` before the call because `patch` never set it,
is still `false`, not set). -/
theorem c2_counterexample :
    gP.1.compute_order = some (gClean, .ok) ∧
    (gClean.patch 0 0 0 0).2 = .err (.InputAlreadyPatched 0 0) ∧
    gCycled.order = [1, 0] ∧ gCycled.dirty = false ∧
    gCycled.compute_order = some (gFailed, .err .CycleDetected) ∧
    gFailed.order ≠ gCycled.order ∧ gFailed.dirty = false := by
  decide

/-- C2 (amended): when `compute_order` fails, the dirty flag and the
node table are left exactly as they were before the call (in particular
dirty is never cleared on failure); the cached order, however, is
cleared at the start of the call and on failure holds only the partial
order built before the failure. -/
theorem c2_fail_dirty_unchanged {g g' : Graph} {e : Error}
    (h : g.compute_order = some (g', .err e)) :
    g'.dirty = g.dirty ∧ g'.nodes = g.nodes := by
  obtain ⟨-, hn, hd⟩ := compute_order_err_spec h
  exact ⟨hd, hn⟩

/-- Witness for the amended C2 at `gCycled`. -/
theorem c2_witness :
    gCycled.compute_order = some (gFailed, .err .CycleDetected) ∧
    gFailed.dirty = gCycled.dirty ∧ gFailed.nodes = gCycled.nodes := by
  have h : gCycled.compute_order = some (gFailed, .err .CycleDetected) := by decide
  exact ⟨h, c2_fail_dirty_unchanged h⟩

/-- C3 (code bug): `add_node` does set the dirty flag, but `patch` never
does.  Starting from the API-reachable clean state `gClean`
(`dirty = false` after a successful `compute_order`), the patch
`0.0 → 0.0` modifies a binding — it reports `InputAlreadyPatched` and
installs the new source — yet the graph's dirty flag is still `false`
afterwards, where the claim requires `true`. -/
theorem c3_patch_leaves_dirty_false :
    (Graph.new.add_node ⟨0, 1⟩).1.dirty = true ∧
    gP.1.compute_order = some (gClean, .ok) ∧
    gClean.dirty = false ∧
    (gClean.patch 0 0 0 0).2 = .err (.InputAlreadyPatched 0 0) ∧
    (gClean.patch 0 0 0 0).1.binding 0 0 = some (0, 0) ∧
    (gClean.patch 0 0 0 0).1.dirty = false := by
  decide

/-! ### Claim C4: the validation order of `patch` -/

/-- Overwrite the binding held by input slot `ch` of node `i` (identity
when the node or slot does not exist). -/
def Graph.setBinding (g : Graph) (i ch : Nat) (b : Option (Nat × Nat)) : Graph :=
  match g.nodes[i]? with
  | some nw => { g with nodes := g.nodes.set i { nw with inputs := nw.inputs.set ch b } }
  | none => g

/-- The behaviour of `patch` as the amended claim describes it: validate
`o_node` existence, then `o_chan` against the output arity, then
`i_node` existence, then `i_chan` against the input arity — failing with
`NoSuchNode` / `NoSuchOutput` / `NoSuchNode` / `NoSuchInput`
respectively, leaving the graph unchanged — and only then install the
binding, reporting `InputAlreadyPatched` when one was already there. -/
def patchSpec (g : Graph) (o_node o_chan i_node i_chan : Nat) : Graph × RStatus :=
  if o_node < g.nodes.length then
    if o_chan < g.outArity o_node then
      if i_node < g.nodes.length then
        if i_chan < g.inArity i_node then
          (g.setBinding i_node i_chan (some (o_node, o_chan)),
           match g.binding i_node i_chan with
           | some _ => .err (.InputAlreadyPatched i_node i_chan)
           | none => .ok)
        else (g, .err (.NoSuchInput i_node i_chan))
      else (g, .err (.NoSuchNode i_node))
    else (g, .err (.NoSuchOutput o_node o_chan))
  else (g, .err (.NoSuchNode o_node))

theorem not_lt_of_getElem?_none {α : Type} {l : List α} {i : Nat}
    (h : l[i]? = none) : ¬ i < l.length := by
  intro hlt
  rw [List.getElem?_eq_getElem hlt] at h
  exact Option.noConfusion h

/-- The function `patch` implements exactly the check order of `patchSpec`. -/
theorem patch_eq_patchSpec (g : Graph) (o_node o_chan i_node i_chan : Nat) :
    g.patch o_node o_chan i_node i_chan = patchSpec g o_node o_chan i_node i_chan := by
  unfold Graph.patch patchSpec Graph.setBinding Graph.outArity Graph.inArity Graph.binding
  cases hon : g.nodes[o_node]? with
  | none =>
    rw [if_neg (not_lt_of_getElem?_none hon)]
  | some nw =>
    rw [if_pos (lt_of_getElem?_some hon)]
    simp only
    by_cases hoc : nw.node.num_outputs ≤ o_chan
    · rw [if_pos hoc, if_neg (by omega)]
    · rw [if_neg hoc, if_pos (by omega)]
      cases hin : g.nodes[i_node]? with
      | none =>
        rw [if_neg (not_lt_of_getElem?_none hin)]
      | some nwi =>
        rw [if_pos (lt_of_getElem?_some hin)]
        simp only
        cases hic : nwi.inputs[i_chan]? with
        | none =>
          rw [if_neg (not_lt_of_getElem?_none hic)]
        | some old =>
          rw [if_pos (lt_of_getElem?_some hic)]
          cases old with
          | none => rfl
          | some p => rfl

/-- C4 counterexample: in a one-node graph, `patch 0 1 5 0` has an
out-of-range destination node (`i_node = 5`), yet the result is
`NoSuchOutput 0 1` — the `o_chan` arity check runs before the `i_node`
existence check, so `NoSuchNode` is not "checked before any other
validation". -/
theorem c4_counterexample :
    (Graph.new.add_node ⟨0, 1⟩).1.nodes.length ≤ 5 ∧
    ((Graph.new.add_node ⟨0, 1⟩).1.patch 0 1 5 0).2 = .err (.NoSuchOutput 0 1) := by
  decide

/-- C4 (amended): `patch` validates in source order — `o_node` existence
(else `NoSuchNode`), `o_chan` against the output arity (else
`NoSuchOutput`), `i_node` existence (else `NoSuchNode`), `i_chan`
against the input-slot count (else `NoSuchInput`) — and in every error
case returns the graph unchanged; only when all checks pass is the
binding overwritten (reporting `InputAlreadyPatched` when the slot was
bound). -/
theorem c4_patch_validation_order (g : Graph) (o_node o_chan i_node i_chan : Nat) :
    g.patch o_node o_chan i_node i_chan = patchSpec g o_node o_chan i_node i_chan :=
  patch_eq_patchSpec g o_node o_chan i_node i_chan

/-! ### Claims C7 and C10: what a valid `patch` does -/

theorem binding_setBinding {g : Graph} {i ch : Nat} (hi : i < g.nodes.length)
    (hch : ch < g.inArity i) (b : Option (Nat × Nat)) :
    (g.setBinding i ch b).binding i ch = b := by
  have hch' : ch < (g.nodes[i]).inputs.length := by
    unfold Graph.inArity at hch
    rw [List.getElem?_eq_getElem hi] at hch
    simpa using hch
  unfold Graph.setBinding Graph.binding
  rw [List.getElem?_eq_getElem hi]
  simp only
  rw [List.getElem?_set_self hi]
  simp only
  rw [List.getElem?_set_self hch']

theorem dep_of_binding {g : Graph} {i ch o oc : Nat}
    (h : g.binding i ch = some (o, oc)) : dep g.nodes i o := by
  unfold Graph.binding at h
  cases hn : g.nodes[i]? with
  | none => rw [hn] at h; exact Option.noConfusion h
  | some nw =>
    rw [hn] at h
    simp only at h
    cases hc : nw.inputs[ch]? with
    | none => rw [hc] at h; exact Option.noConfusion h
    | some b =>
      rw [hc] at h
      subst h
      exact mem_deps_of_input hn (mem_of_getElem?_some hc)

/-- C7: a valid `patch` aimed at an already-bound input slot returns
`InputAlreadyPatched` and nevertheless replaces the binding: afterwards
the slot holds the new `(o_node, o_chan)`, not the old pair. -/
theorem c7_repatch_replaces {g : Graph} {o_node o_chan i_node i_chan : Nat}
    {p : Nat × Nat}
    (ho : o_node < g.nodes.length) (hoc : o_chan < g.outArity o_node)
    (hi : i_node < g.nodes.length) (hic : i_chan < g.inArity i_node)
    (hbound : g.binding i_node i_chan = some p) :
    (g.patch o_node o_chan i_node i_chan).2 = .err (.InputAlreadyPatched i_node i_chan) ∧
    (g.patch o_node o_chan i_node i_chan).1.binding i_node i_chan =
      some (o_node, o_chan) := by
  rw [patch_eq_patchSpec]
  unfold patchSpec
  rw [if_pos ho, if_pos hoc, if_pos hi, if_pos hic, hbound]
  exact ⟨rfl, binding_setBinding hi hic _⟩

/-- Witness for C7 at `gClean` (slot `(0,0)` bound to `(1,0)`, re-patched
from `(0,0)`). -/
theorem c7_witness :
    0 < gClean.nodes.length ∧ 0 < gClean.outArity 0 ∧ 0 < gClean.inArity 0 ∧
    gClean.binding 0 0 = some (1, 0) ∧
    (gClean.patch 0 0 0 0).2 = .err (.InputAlreadyPatched 0 0) ∧
    (gClean.patch 0 0 0 0).1.binding 0 0 = some (0, 0) := by
  have h := c7_repatch_replaces
    (by decide : 0 < gClean.nodes.length)
    (by decide : 0 < gClean.outArity 0)
    (by decide : 0 < gClean.nodes.length)
    (by decide : 0 < gClean.inArity 0)
    (by decide : gClean.binding 0 0 = some (1, 0))
  exact ⟨by decide, by decide, by decide, by decide, h.1, h.2⟩

/-- A one-node graph with one (unbound) input and one output, used to
install a self-loop. -/
def c10g : Graph :=
  { nodes := [⟨⟨1, 1⟩, [none]⟩], order := [], dirty := true }

/-- C10: `patch` performs no acyclicity check: any patch with in-range
indices — including one that closes a dependency cycle, such as a node's
own output into its own input — is accepted (result `Ok` or
`InputAlreadyPatched`, never `CycleDetected`), and the binding is
installed, creating the dependency edge `i_node → o_node`. -/
theorem c10_patch_never_checks_cycles {g : Graph} {o_node o_chan i_node i_chan : Nat}
    (ho : o_node < g.nodes.length) (hoc : o_chan < g.outArity o_node)
    (hi : i_node < g.nodes.length) (hic : i_chan < g.inArity i_node) :
    ((g.patch o_node o_chan i_node i_chan).2 = .ok ∨
      (g.patch o_node o_chan i_node i_chan).2 =
        .err (.InputAlreadyPatched i_node i_chan)) ∧
    (g.patch o_node o_chan i_node i_chan).1.binding i_node i_chan =
      some (o_node, o_chan) ∧
    dep (g.patch o_node o_chan i_node i_chan).1.nodes i_node o_node := by
  rw [patch_eq_patchSpec]
  unfold patchSpec
  rw [if_pos ho, if_pos hoc, if_pos hi, if_pos hic]
  have hb := binding_setBinding hi hic (some (o_node, o_chan))
  refine ⟨?_, hb, dep_of_binding hb⟩
  cases hold : g.binding i_node i_chan with
  | none => exact Or.inl rfl
  | some p => exact Or.inr rfl

/-- Witness for C10: installing a self-loop on `c10g` is accepted with
`Ok` and `compute_order` afterwards reports the cycle. -/
theorem c10_witness :
    0 < c10g.nodes.length ∧ 0 < c10g.outArity 0 ∧ 0 < c10g.inArity 0 ∧
    ((c10g.patch 0 0 0 0).2 = .ok ∨
      (c10g.patch 0 0 0 0).2 = .err (.InputAlreadyPatched 0 0)) ∧
    (c10g.patch 0 0 0 0).1.binding 0 0 = some (0, 0) ∧
    dep (c10g.patch 0 0 0 0).1.nodes 0 0 ∧
    (c10g.patch 0 0 0 0).1.compute_order =
      some ((c10g.patch 0 0 0 0).1, .err .CycleDetected) := by
  have h := c10_patch_never_checks_cycles
    (by decide : 0 < c10g.nodes.length)
    (by decide : 0 < c10g.outArity 0)
    (by decide : 0 < c10g.nodes.length)
    (by decide : 0 < c10g.inArity 0)
  exact ⟨by decide, by decide, by decide, h.1, h.2.1, h.2.2, by decide⟩

/-! ### Claims C8 and C9: the constant-source output channel -/

theorem output_fst {α : Type} (c : ConstOut α) (dst : List α) :
    (c.output dst).1 = min c.count dst.length := rfl

theorem output_length {α : Type} (c : ConstOut α) (dst : List α) :
    ((c.output dst).2).length = dst.length := by
  show (List.replicate (min c.count dst.length) c.val ++
    dst.drop (min c.count dst.length)).length = dst.length
  simp

theorem output_take {α : Type} (c : ConstOut α) (dst : List α) :
    ((c.output dst).2).take ((c.output dst).1) =
      List.replicate ((c.output dst).1) c.val := by
  show (List.replicate (min c.count dst.length) c.val ++
      dst.drop (min c.count dst.length)).take (min c.count dst.length) =
    List.replicate (min c.count dst.length) c.val
  rw [List.take_append_of_le_length (by simp)]
  simp

theorem output_drop {α : Type} (c : ConstOut α) (dst : List α) :
    ((c.output dst).2).drop ((c.output dst).1) =
      dst.drop ((c.output dst).1) := by
  show (List.replicate (min c.count dst.length) c.val ++
      dst.drop (min c.count dst.length)).drop (min c.count dst.length) =
    dst.drop (min c.count dst.length)
  rw [List.drop_append_of_le_length (by simp)]
  simp

/-- C8: for a constant-source channel with pending count `count` and
value `val`, `num_samples` returns the count, and `output` into `dst`
returns `min count dst.length`, fills exactly that prefix of `dst` with
`val`, and leaves the entries beyond it untouched.  (For
`count ≤ dst.length` this is the claim's first case — returns `count`,
first `count` entries written, rest untouched; for `dst.length < count`
it is the second — returns `dst.length` and every entry written.) -/
theorem c8_constant_output {α : Type} (c : ConstOut α) (dst : List α) :
    c.num_samples = c.count ∧
    (c.output dst).1 = min c.num_samples dst.length ∧
    ((c.output dst).2).length = dst.length ∧
    ((c.output dst).2).take ((c.output dst).1) =
      List.replicate ((c.output dst).1) c.val ∧
    ((c.output dst).2).drop ((c.output dst).1) = dst.drop ((c.output dst).1) :=
  ⟨rfl, rfl, output_length c dst, output_take c dst, output_drop c dst⟩

/-- C9: reading an output channel does not change the channel's own
state.  `output` takes the receiver by shared reference, so the channel
after a read transaction is the same value and `num_samples` is
unchanged; consequently repeated `output` calls into equal-length
buffers return the same count and write the same data. -/
theorem c9_output_does_not_mutate {α : Type} (c : ConstOut α) (dst₁ dst₂ : List α)
    (h : dst₁.length = dst₂.length) :
    (c.outputCall dst₁).1 = c ∧
    ((c.outputCall dst₁).1).num_samples = c.num_samples ∧
    (c.output dst₁).1 = (c.output dst₂).1 ∧
    ((c.output dst₁).2).take ((c.output dst₁).1) =
      ((c.output dst₂).2).take ((c.output dst₂).1) := by
  have hfst : (c.output dst₁).1 = (c.output dst₂).1 := by
    rw [output_fst, output_fst, h]
  refine ⟨rfl, rfl, hfst, ?_⟩
  rw [output_take, output_take, hfst]

/-- The constant source of the spec's scenario: count 4, value 2.5. -/
def c9c : ConstOut ℚ := ⟨4, 5 / 2⟩

/-- Witness for C9 at two distinct equal-length buffers. -/
theorem c9_witness :
    ([0, 0, 0, 0, 0, 0] : List ℚ).length = ([1, 1, 1, 1, 1, 1] : List ℚ).length ∧
    (c9c.outputCall [0, 0, 0, 0, 0, 0]).1 = c9c ∧
    ((c9c.outputCall [0, 0, 0, 0, 0, 0]).1).num_samples = c9c.num_samples ∧
    (c9c.output [0, 0, 0, 0, 0, 0]).1 = (c9c.output [1, 1, 1, 1, 1, 1]).1 ∧
    ((c9c.output [0, 0, 0, 0, 0, 0]).2).take ((c9c.output [0, 0, 0, 0, 0, 0]).1) =
      ((c9c.output [1, 1, 1, 1, 1, 1]).2).take ((c9c.output [1, 1, 1, 1, 1, 1]).1) := by
  have h := c9_output_does_not_mutate c9c [0, 0, 0, 0, 0, 0] [1, 1, 1, 1, 1, 1] rfl
  exact ⟨rfl, h.1, h.2.1, h.2.2.1, h.2.2.2⟩

end Gyroscope
